import Mathlib

/-
Verification of the markdown section parser, section patcher, plan
validator and retry wrapper of the BRD editor.

Documents are modelled as lists of characters (`List Char`); a document
is split into lines on `'\n'` exactly as JavaScript `String.split('\n')`
does.  The server-side code lives in
`supabase/functions/ai-brd-processor/index.ts`; the client-side copy of
the parser lives in `src/hooks/useBRDProcessor.ts`.
-/

namespace BRD

/-- Character class of the JavaScript regular-expression class `\s`,
which is also exactly the set of characters removed by
`String.prototype.trim`: space, tab, vertical tab, form feed, carriage
return, line feed, no-break space, BOM, the Unicode `Zs` spaces, and the
line/paragraph separators. -/
def isJsWs (c : Char) : Bool :=
  c == ' ' || c == '\t' || c == '\n' || c == '\r' ||
  c == '\x0b' || c == '\x0c' || c == '\u00A0' || c == '\u1680' ||
  (('\u2000' ≤ c) && (c ≤ '\u200A')) ||
  c == '\u2028' || c == '\u2029' || c == '\u202F' || c == '\u205F' ||
  c == '\u3000' || c == '\uFEFF'

/-- Line terminators of JavaScript: the characters that the regex
metacharacter `.` does NOT match (without the `s` flag). -/
def isLineTerminator (c : Char) : Bool :=
  c == '\n' || c == '\r' || c == '\u2028' || c == '\u2029'

/-- Characters matched by the JavaScript regex metacharacter `.`. -/
def isDotChar (c : Char) : Bool :=
  !(isLineTerminator c)

/-- JavaScript `str.split('\n')`: the empty string yields `[""]`, a
trailing newline yields a trailing empty line. -/
def splitLines : List Char → List (List Char)
  | [] => [[]]
  | c :: rest =>
    if c = '\n' then [] :: splitLines rest
    else
      match splitLines rest with
      | [] => [[c]]
      | l :: ls => (c :: l) :: ls

/-- JavaScript `arr.join('\n')` on a list of lines. -/
def joinLines (ls : List (List Char)) : List Char :=
  List.intercalate ['\n'] ls

/-- JavaScript `String.prototype.trim`: strip leading and trailing
whitespace (the `\s` class, line terminators included). -/
def jsTrim (s : List Char) : List Char :=
  ((s.dropWhile isJsWs).reverse.dropWhile isJsWs).reverse

/-- Embedding of `line.match(/^(#+)\s+(.+)$/)` from both copies of
`parseMarkdownSections`, returning `(level, title)` — the length of
capture group 1 and the text of capture group 2 — when the line matches.

Derivation of the semantics of this anchored regex under the JavaScript
engine:
* `(#+)` greedily takes the maximal leading run of `'#'`; backtracking
  it to a shorter run can never help, because the following `\s+`
  requires a whitespace character and `'#'` is not whitespace.
* `\s+` greedily takes the maximal whitespace run `w` that follows,
  backtracking one character at a time while `(.+)$` fails.
* `(.+)$` succeeds from a position exactly when the rest of the line up
  to the end is non-empty and free of line terminators (`.` does not
  match U+000A, U+000D, U+2028 or U+2029; `$` is anchored at the
  end of the input since the `m` flag is absent).
Hence: if the text `t` after the maximal whitespace run is non-empty,
the line matches iff `t` consists of `.`-matchable characters, with
title `t` (note: NOT trimmed — trailing whitespace stays); if `t` is
empty (everything after the hashes is whitespace), backtracking hands
the last whitespace character to `(.+)`, so the line matches iff that
run has length at least 2 and its last character is not a line
terminator, with that single character as title. -/
def headerMatch (line : List Char) : Option (Nat × List Char) :=
  let hashes := line.takeWhile (fun c => c == '#')
  let rest := line.dropWhile (fun c => c == '#')
  if hashes.isEmpty then none
  else
    let w := rest.takeWhile isJsWs
    let t := rest.dropWhile isJsWs
    if w.isEmpty then none
    else if t.isEmpty then
      match w.getLast? with
      | some c =>
        if 2 ≤ w.length then
          if isDotChar c then some (hashes.length, [c]) else none
        else none
      | none => none
    else if t.all isDotChar then some (hashes.length, t) else none

/-- Section record produced by the server-side parser
(`parseMarkdownSections` in `ai-brd-processor/index.ts`); the parser
always assigns both line indices. -/
structure Section where
  title : List Char
  level : Nat
  content : List Char
  start_index : Nat
  end_index : Nat
deriving DecidableEq, Repr

/-- Mutable state of the `lines.forEach` loop of
`parseMarkdownSections`: the accumulated `sections` array, the open
`currentSection` (its `title`, `level`, `start_index`), and the
accumulated `contentLines`. -/
structure PState where
  sections : List Section
  cur : Option (List Char × Nat × Nat)
  contentLines : List (List Char)
deriving DecidableEq, Repr

/-- Closing an open section: `{...currentSection,
content: contentLines.join('\n').trim(), end_index: ei}`. -/
def closeSection (t : List Char) (lv si ei : Nat)
    (cls : List (List Char)) : Section :=
  { title := t, level := lv, content := jsTrim (joinLines cls),
    start_index := si, end_index := ei }

/-- Body of the `lines.forEach((line, index) => ...)` callback of the
server-side `parseMarkdownSections`. -/
def stepLine (st : PState) (line : List Char) (idx : Nat) : PState :=
  match headerMatch line with
  | some (lv, t) =>
    let secs :=
      match st.cur with
      | some (t0, lv0, si0) =>
        st.sections ++ [closeSection t0 lv0 si0 (idx - 1) st.contentLines]
      | none => st.sections
    { sections := secs, cur := some (t, lv, idx), contentLines := [] }
  | none =>
    match st.cur with
    | some _ => { st with contentLines := st.contentLines ++ [line] }
    | none => st

/-- The `forEach` loop itself, carrying the running line index. -/
def parseLoop : List (List Char) → Nat → PState → PState
  | [], _, st => st
  | l :: ls, idx, st => parseLoop ls (idx + 1) (stepLine st l idx)

/-- After the loop: if a section is still open, close it with
`end_index: lines.length - 1`. -/
def flushLast (st : PState) (total : Nat) : List Section :=
  match st.cur with
  | some (t, lv, si) =>
    st.sections ++ [closeSection t lv si (total - 1) st.contentLines]
  | none => st.sections

/-- The parser on an already-split line array. -/
def parseLines (lines : List (List Char)) : List Section :=
  flushLast (parseLoop lines 0 ⟨[], none, []⟩) lines.length

/-- Server-side `parseMarkdownSections(content)` from
`supabase/functions/ai-brd-processor/index.ts`. -/
def parseMarkdownSections (content : List Char) : List Section :=
  parseLines (splitLines content)

/-- Section record produced by the client-side parser in
`src/hooks/useBRDProcessor.ts` (`Section` of `src/types/brd.ts`, camel
case field names). -/
structure ClientSection where
  title : List Char
  level : Nat
  content : List Char
  startIndex : Nat
  endIndex : Nat
deriving DecidableEq, Repr

/-- Loop state of the client-side parser. -/
structure CPState where
  sections : List ClientSection
  cur : Option (List Char × Nat × Nat)
  contentLines : List (List Char)
deriving DecidableEq, Repr

/-- Client-side section close. -/
def clientCloseSection (t : List Char) (lv si ei : Nat)
    (cls : List (List Char)) : ClientSection :=
  { title := t, level := lv, content := jsTrim (joinLines cls),
    startIndex := si, endIndex := ei }

/-- Body of the client-side `lines.forEach` callback (same regex, same
logic, camel-case indices). -/
def clientStepLine (st : CPState) (line : List Char) (idx : Nat) : CPState :=
  match headerMatch line with
  | some (lv, t) =>
    let secs :=
      match st.cur with
      | some (t0, lv0, si0) =>
        st.sections ++ [clientCloseSection t0 lv0 si0 (idx - 1) st.contentLines]
      | none => st.sections
    { sections := secs, cur := some (t, lv, idx), contentLines := [] }
  | none =>
    match st.cur with
    | some _ => { st with contentLines := st.contentLines ++ [line] }
    | none => st

/-- The client-side `forEach` loop. -/
def clientParseLoop : List (List Char) → Nat → CPState → CPState
  | [], _, st => st
  | l :: ls, idx, st => clientParseLoop ls (idx + 1) (clientStepLine st l idx)

/-- Client-side final flush (`endIndex: lines.length - 1`). -/
def clientFlushLast (st : CPState) (total : Nat) : List ClientSection :=
  match st.cur with
  | some (t, lv, si) =>
    st.sections ++ [clientCloseSection t lv si (total - 1) st.contentLines]
  | none => st.sections

/-- Client-side `parseMarkdownSections(content)` from
`src/hooks/useBRDProcessor.ts` (renamed here to avoid clashing with the
server-side copy). -/
def parseMarkdownSectionsClient (content : List Char) : List ClientSection :=
  clientFlushLast
    (clientParseLoop (splitLines content) 0 ⟨[], none, []⟩)
    (splitLines content).length

/-- Field renaming `startIndex`/`endIndex` to `start_index`/`end_index`
(the renaming the client itself performs when it ingests server
sections). -/
def ClientSection.toServer (s : ClientSection) : Section :=
  ⟨s.title, s.level, s.content, s.startIndex, s.endIndex⟩

/-- Field renaming applied to a whole client parser state. -/
def CPState.toServer (st : CPState) : PState :=
  ⟨st.sections.map ClientSection.toServer, st.cur, st.contentLines⟩

/-- A `brd_sections` row as the patcher reads it back from the store:
the two indices are nullable columns, hence `Option`. -/
structure DbSection where
  title : List Char
  level : Nat
  content : List Char
  start_index : Option Nat
  end_index : Option Nat
deriving DecidableEq, Repr

/-- Persisting a freshly parsed section: both indices are present. -/
def Section.toDb (s : Section) : DbSection :=
  ⟨s.title, s.level, s.content, some s.start_index, some s.end_index⟩

/-- One entry of `updatedSections` of an edit plan: `{title, content}`
(type `AIEditResponse` of `src/types/brd.ts`). -/
structure UpdatedSection where
  title : List Char
  content : List Char
deriving DecidableEq, Repr

/-- Hash run `'#'.repeat(n)`. -/
def hashMarks (n : Nat) : List Char :=
  List.replicate n '#'

/-- One iteration of the document-rebuild loop of `processAIEdit`
(`ai-brd-processor/index.ts`, lines 178–187): find the section whose
title equals the update's title; if found and its indices are non-null,
split the CURRENT document into lines, splice
`` `${'#'.repeat(level)} ${title}\n${content}` `` over the line range
`[start_index, end_index]`, and re-join. -/
def applyUpdate (sections : List DbSection) (newContent : List Char)
    (upd : UpdatedSection) : List Char :=
  match sections.find? (fun s => s.title == upd.title) with
  | some sec =>
    match sec.start_index, sec.end_index with
    | some si, some ei =>
      let lines := splitLines newContent
      let before := lines.take si
      let after := lines.drop (ei + 1)
      let newSectionContent :=
        hashMarks sec.level ++ [' '] ++ upd.title ++ ['\n'] ++ upd.content
      joinLines (before ++ [newSectionContent] ++ after)
    | _, _ => newContent
  | none => newContent

/-- The whole rebuild loop of `processAIEdit`: starting from
`document.current_content`, apply each entry of
`parsedResponse.updatedSections` in order. -/
def rebuildContent (currentContent : List Char) (sections : List DbSection)
    (upds : List UpdatedSection) : List Char :=
  upds.foldl (applyUpdate sections) currentContent

/-- JSON values as `JSON.parse` can produce them (numbers restricted to
integers; no claim depends on numerics). -/
inductive Json where
  | null : Json
  | bool : Bool → Json
  | num : Int → Json
  | str : List Char → Json
  | arr : List Json → Json
  | obj : List (List Char × Json) → Json

/-- JavaScript property access `j[k]`; `none` models `undefined`
(missing key, or access on a non-object). -/
def Json.getField : Json → List Char → Option Json
  | .obj fields, k => (fields.find? (fun f => f.1 == k)).map (fun f => f.2)
  | _, _ => none

/-- JavaScript truthiness of a value. -/
def Json.truthy : Json → Bool
  | .null => false
  | .bool b => b
  | .num n => n != 0
  | .str s => s != []
  | .arr _ => true
  | .obj _ => true

/-- Truthiness of a possibly-`undefined` value (`undefined` is falsy). -/
def truthyOpt : Option Json → Bool
  | some j => j.truthy
  | none => false

/-- Test `Array.isArray(x)` on a possibly-`undefined` value. -/
def isArrOpt : Option Json → Bool
  | some (.arr _) => true
  | _ => false

mutual

/-- JavaScript string coercion `` `${x}` `` of a JSON value: strings
pass through, numbers and booleans print, `null` prints as `"null"`,
arrays join their coerced elements with commas, plain objects print as
`"[object Object]"`. -/
def Json.toJsStr : Json → List Char
  | .null => ('n' :: 'u' :: 'l' :: 'l' :: [])
  | .bool true => ('t' :: 'r' :: 'u' :: 'e' :: [])
  | .bool false => ('f' :: 'a' :: 'l' :: 's' :: 'e' :: [])
  | .num n => (toString n).data
  | .str s => s
  | .arr xs => List.intercalate [','] (jsonListToJsStr xs)
  | .obj _ => "[object Object]".data

/-- String coercion mapped over a list of JSON values. -/
def jsonListToJsStr : List Json → List (List Char)
  | [] => []
  | j :: js => Json.toJsStr j :: jsonListToJsStr js

end

/-- A validated edit plan as `processAIEdit` consumes it.  The source
returns the raw parsed object; its declared type (`AIEditResponse` in
`src/types/brd.ts`) gives `updatedSections` entries string `title` and
`content`, which the rebuild loop reads — `Json.toJsStr` mirrors the
string coercion the template literal applies there.  The other two
fields are only echoed to the caller and the edit-history row, so they
stay raw JSON values. -/
structure EditPlan where
  sectionsToUpdate : List Json
  updatedSections : List UpdatedSection
  summaryOfChanges : List Json

/-- Conversion of one validated `updatedSections` entry. -/
def entryToUpdated (e : Json) : UpdatedSection :=
  { title := ((e.getField "title".data).map Json.toJsStr).getD [],
    content := ((e.getField "content".data).map Json.toJsStr).getD [] }

/-- The validation block of `parseAIResponse`
(`ai-brd-processor/index.ts`, lines 326–344): the three top-level keys
must be present (truthy) and arrays, and every `updatedSections` entry
must have truthy `title` and `content`; the first violated check throws
its error message. -/
def validatePlan (parsed : Json) : Except (List Char) EditPlan :=
  let stu := parsed.getField "sectionsToUpdate".data
  let us := parsed.getField "updatedSections".data
  let soc := parsed.getField "summaryOfChanges".data
  if !truthyOpt stu || !isArrOpt stu then
    .error "Missing or invalid sectionsToUpdate array".data
  else if !truthyOpt us || !isArrOpt us then
    .error "Missing or invalid updatedSections array".data
  else if !truthyOpt soc || !isArrOpt soc then
    .error "Missing or invalid summaryOfChanges array".data
  else
    match stu, us, soc with
    | some (.arr stuArr), some (.arr usArr), some (.arr socArr) =>
      if usArr.all (fun e =>
          truthyOpt (e.getField "title".data) &&
          truthyOpt (e.getField "content".data)) then
        .ok { sectionsToUpdate := stuArr,
              updatedSections := usArr.map entryToUpdated,
              summaryOfChanges := socArr }
      else .error "Updated section missing title or content".data
    | _, _, _ => .error "Missing or invalid sectionsToUpdate array".data

/-- Dropping a trailing code fence: `replace(/\s*```$/, '')` removes the
final three backticks and the maximal whitespace run right before them,
when the string ends in three backticks (otherwise the end-anchored
pattern cannot match). -/
def stripTrailingFence (s : List Char) : List Char :=
  if ("```".data).isSuffixOf s then
    ((s.take (s.length - 3)).reverse.dropWhile isJsWs).reverse
  else s

/-- The fence-removal step of `parseAIResponse` (lines 310–314):
`replace(/^```json\s*/, '')` when the trimmed response starts with
```` ```json ````, else `replace(/^```\s*/, '')` when it starts with
three backticks; each also strips the trailing fence. -/
def stripFences (s : List Char) : List Char :=
  if ("```json".data).isPrefixOf s then
    stripTrailingFence ((s.drop 7).dropWhile isJsWs)
  else if ("```".data).isPrefixOf s then
    stripTrailingFence ((s.drop 3).dropWhile isJsWs)
  else s

/-- The brace-extraction step `cleanedResponse.match(/\{[\s\S]*\}/)`
(lines 317–320): with `[\s\S]` matching every character and a greedy
star, the leftmost-greedy match runs from the first `'{'` to the last
`'}'`, and exists exactly when that `'}'` lies after that `'{'`; when it
exists the cleaned response becomes that slice. -/
def extractBraces (s : List Char) : List Char :=
  match s.findIdx? (fun c => c == '{') with
  | none => s
  | some i =>
    match s.reverse.findIdx? (fun c => c == '}') with
    | none => s
    | some rj =>
      let j := s.length - 1 - rj
      if i < j then (s.drop i).take (j - i + 1) else s

/-- The whole cleanup pipeline of `parseAIResponse` applied to the raw
model response before `JSON.parse`. -/
def cleanResponse (responseText : List Char) : List Char :=
  extractBraces (stripFences (jsTrim responseText))

/-- The `try` body of `parseAIResponse`: clean the response, parse it
with the platform `JSON.parse` (abstracted as the `jsonParse` argument,
an external builtin returning either a value or a thrown message), then
validate.  An `error` result models a thrown exception reaching the
`catch`. -/
def planOfResponse (jsonParse : List Char → Except (List Char) Json)
    (responseText : List Char) : Except (List Char) EditPlan :=
  match jsonParse (cleanResponse responseText) with
  | .error e => .error e
  | .ok parsed => validatePlan parsed

/-- Function `parseAIResponse(responseText)` (lines 304–356): any exception from
parsing or validation is caught and degraded to the fallback plan
`{sectionsToUpdate: [], updatedSections: [],
summaryOfChanges: ['Error processing request: ...']}`. -/
def parseAIResponse (jsonParse : List Char → Except (List Char) Json)
    (responseText : List Char) : EditPlan :=
  match planOfResponse jsonParse responseText with
  | .ok plan => plan
  | .error e =>
    { sectionsToUpdate := [],
      updatedSections := [],
      summaryOfChanges := [Json.str ("Error processing request: ".data ++ e)] }

/-- The `for (let attempt = 1; attempt <= maxRetries; attempt++)` loop
of `callOpenAIWithRetry` (lines 259–299).  One network attempt —
`fetch`, the `response.ok` check, JSON decoding, the response-structure
check and the final `.trim()` — is abstracted as the oracle
`attemptResult : attempt number → text or thrown message`.  The
`setTimeout` backoff only delays; it does not change the result.  The
fuel counts the remaining loop iterations; exhausting it models falling
out of the loop. -/
def retryGo (attemptResult : Nat → Except (List Char) (List Char))
    (maxRetries : Nat) : Nat → Nat → Except (List Char) (List Char)
  | 0, _ => .error "Unexpected error in OpenAI retry logic".data
  | fuel + 1, attempt =>
    match attemptResult attempt with
    | .ok t => .ok t
    | .error e =>
      if attempt = maxRetries then
        .error ("OpenAI API failed after ".data ++ (toString maxRetries).data
          ++ " attempts: ".data ++ e)
      else retryGo attemptResult maxRetries fuel (attempt + 1)

/-- Function `callOpenAIWithRetry(messages, maxRetries = 3)`: fail fast when the
API key is absent, otherwise run the attempt loop starting at attempt 1.
The source's only callers use the default `maxRetries = 3`. -/
def callOpenAIWithRetry (apiKey : Option (List Char))
    (attemptResult : Nat → Except (List Char) (List Char))
    (maxRetries : Nat) : Except (List Char) (List Char) :=
  match apiKey with
  | none => .error "OpenAI API key not configured".data
  | some _ => retryGo attemptResult maxRetries maxRetries 1

/-- Sample `JSON.parse` oracle: every input parses to an object that has
`sectionsToUpdate` and `summaryOfChanges` but is missing the
`updatedSections` array. -/
def jpMissingUpdated : List Char → Except (List Char) Json := fun _ =>
  .ok (Json.obj [("sectionsToUpdate".data, Json.arr []),
                 ("summaryOfChanges".data, Json.arr [])])

/-- Sample attempt oracle: the network fails on every attempt except
attempt 2. -/
def attemptOracle2 : Nat → Except (List Char) (List Char) := fun a =>
  if a = 2 then .ok "pong".data else .error "down".data

/-- Start index of the first section of a list, or `stop` for the empty
list. -/
def nextStart : List Section → Nat → Nat
  | [], stop => stop
  | s :: _, _ => s.start_index

/-- Boundary discipline of a section list that is followed by a heading
(or by the document end) at line `stop`: every section starts strictly
before the next section's start line and ends exactly one line before
it. -/
def chainTo : List Section → Nat → Prop
  | [], _ => True
  | s :: rest, stop =>
    s.start_index < nextStart rest stop ∧
    s.end_index + 1 = nextStart rest stop ∧
    chainTo rest stop

/-- Loop invariant of the parser: while no section is open the section
list is empty; while one is open its start line is in the already-read
prefix and the closed sections chain up to it. -/
def loopInv (idx : Nat) (st : PState) : Prop :=
  match st.cur with
  | none => st.sections = []
  | some (_, _, si) => si < idx ∧ chainTo st.sections si

/-- Number of sections the state will ultimately contribute: the closed
ones plus the open one. -/
def sectionTally (st : PState) : Nat :=
  st.sections.length + (match st.cur with | some _ => 1 | none => 0)

/-- The index-free signature of a section: title, level, content. -/
def secSig (s : Section) : List Char × Nat × List Char :=
  (s.title, s.level, s.content)

/-- The index-free part of an open section. -/
def curSig : Option (List Char × Nat × Nat) → Option (List Char × Nat)
  | none => none
  | some (t, lv, _) => some (t, lv)

/-- The index-free signature of a whole parser state. -/
def stSig (st : PState) :
    List (List Char × Nat × List Char) × Option (List Char × Nat)
      × List (List Char) :=
  (st.sections.map secSig, curSig st.cur, st.contentLines)

end BRD

namespace BRD

/-- C3: applying the Section Parser and then the Section Patcher with an
empty replacement set returns text byte-identical to the input document:
the rebuild loop of `processAIEdit` never runs, so
`document.current_content` is returned unchanged. -/
theorem patch_empty_replacements_identity (content : List Char) :
    rebuildContent content
      ((parseMarkdownSections content).map Section.toDb) [] = content := rfl

/-- C1 (failing input): replacing both sections of the two-section
document `"# A\na1\na2\n# B\nb1"` with contents `"x"` and `"y"` in one
call and re-parsing yields sections `A:"x"`, `B:""`, `B:"y"` — the
replaced section `B` does not carry its replacement content; the second
splice re-split the already-mutated document but used the stale original
line range of `B`. -/
theorem rebuild_multi_replacement_corrupts :
    (parseMarkdownSections
        (rebuildContent ("# A\na1\na2\n# B\nb1").data
          ((parseMarkdownSections ("# A\na1\na2\n# B\nb1").data).map
            Section.toDb)
          [⟨("A").data, ("x").data⟩, ⟨("B").data, ("y").data⟩])).map
      (fun s => (s.title, s.content))
    = [(("A").data, ("x").data), (("B").data, []),
       (("B").data, ("y").data)] := by decide

/-- C7: a replacement entry whose title matches no section in the
original section list is a no-op: deleting it from the replacement list
leaves the patcher's output unchanged at whatever position it occurs. -/
theorem patch_unmatched_replacement_noop (content : List Char)
    (sections : List DbSection) (pre post : List UpdatedSection)
    (u : UpdatedSection) (h : ∀ s ∈ sections, s.title ≠ u.title) :
    rebuildContent content sections (pre ++ u :: post)
      = rebuildContent content sections (pre ++ post) := by
  unfold rebuildContent
  rw [List.foldl_append, List.foldl_append, List.foldl_cons]
  have hfind : sections.find? (fun s => s.title == u.title) = none := by
    apply List.find?_eq_none.mpr
    intro s hs
    simpa using h s hs
  have happ : applyUpdate sections (List.foldl (applyUpdate sections) content pre) u
      = List.foldl (applyUpdate sections) content pre := by
    unfold applyUpdate
    rw [hfind]
  rw [happ]

/-- Witness for C7 at a concrete input: the unmatched replacement
`("Z", "q")` leaves the one-section document untouched. -/
theorem patch_unmatched_replacement_noop_check :
    rebuildContent ("# A\nx").data
        ((parseMarkdownSections ("# A\nx").data).map Section.toDb)
        [⟨("Z").data, ("q").data⟩]
      = ("# A\nx").data := by
  have h := patch_unmatched_replacement_noop ("# A\nx").data
      ((parseMarkdownSections ("# A\nx").data).map Section.toDb) [] []
      ⟨("Z").data, ("q").data⟩ (by decide)
  exact h.trans rfl

/-- C5: whenever the `try` body of `parseAIResponse` throws — the
response fails `JSON.parse` or fails validation — the function returns
the fallback plan: empty `sectionsToUpdate`, empty `updatedSections`,
and a single non-empty error entry in `summaryOfChanges`; consequently
the rebuild loop applies no change to any document. -/
theorem parseAIResponse_degrades_safely
    (jsonParse : List Char → Except (List Char) Json)
    (responseText : List Char) (e : List Char)
    (h : planOfResponse jsonParse responseText = .error e) :
    (parseAIResponse jsonParse responseText).sectionsToUpdate = [] ∧
    (parseAIResponse jsonParse responseText).updatedSections = [] ∧
    (parseAIResponse jsonParse responseText).summaryOfChanges
        = [Json.str ("Error processing request: ".data ++ e)] ∧
    (parseAIResponse jsonParse responseText).summaryOfChanges ≠ [] ∧
    ∀ (doc : List Char) (sections : List DbSection),
      rebuildContent doc sections
        (parseAIResponse jsonParse responseText).updatedSections = doc := by
  unfold parseAIResponse
  rw [h]
  exact ⟨rfl, rfl, rfl, by simp, fun doc sections => rfl⟩

/-- Witness for C5: a response parsing to an object with no
`updatedSections` array degrades to the safe empty plan. -/
theorem parseAIResponse_degrades_safely_check :
    (parseAIResponse jpMissingUpdated []).updatedSections = [] ∧
    (parseAIResponse jpMissingUpdated []).summaryOfChanges ≠ [] := by
  have h := parseAIResponse_degrades_safely jpMissingUpdated []
      ("Missing or invalid updatedSections array").data (by rfl)
  exact ⟨h.2.1, h.2.2.2.1⟩

/-- C9: with the source's `maxRetries = 3`, the retry wrapper consults
at most attempts 1..3 of the network oracle (its result is unchanged by
replacing the oracle beyond them); if the first successful attempt is
some `k ≤ 3` it returns that attempt's text; and if all three attempts
fail it returns the typed failure built from the last error, never an
unbounded retry. -/
theorem callOpenAIWithRetry_spec (key : List Char)
    (f g : Nat → Except (List Char) (List Char)) :
    ((∀ a, 1 ≤ a → a ≤ 3 → f a = g a) →
        callOpenAIWithRetry (some key) f 3
          = callOpenAIWithRetry (some key) g 3)
  ∧ (∀ k t, 1 ≤ k → k ≤ 3 →
        (∀ i, 1 ≤ i → i < k → ∃ e, f i = .error e) → f k = .ok t →
        callOpenAIWithRetry (some key) f 3 = .ok t)
  ∧ ((∀ a, 1 ≤ a → a ≤ 3 → ∃ e, f a = .error e) →
        ∃ e, f 3 = .error e ∧
          callOpenAIWithRetry (some key) f 3
            = .error (("OpenAI API failed after ").data
                ++ (toString (3 : Nat)).data ++ (" attempts: ").data ++ e)) := by
  have unroll : ∀ h : Nat → Except (List Char) (List Char),
      callOpenAIWithRetry (some key) h 3 =
        (match h 1 with
         | .ok t => .ok t
         | .error _ =>
           match h 2 with
           | .ok t => .ok t
           | .error _ =>
             match h 3 with
             | .ok t => .ok t
             | .error e =>
               .error (("OpenAI API failed after ").data
                 ++ (toString (3 : Nat)).data ++ (" attempts: ").data ++ e)) :=
    fun _ => rfl
  refine ⟨?_, ?_, ?_⟩
  · intro hfg
    have e1 := hfg 1 (by omega) (by omega)
    have e2 := hfg 2 (by omega) (by omega)
    have e3 := hfg 3 (by omega) (by omega)
    rw [unroll f, unroll g, e1, e2, e3]
  · intro k t hk1 hk3 hfail hok
    interval_cases k
    · rw [unroll f, hok]
    · obtain ⟨e1, he1⟩ := hfail 1 (by omega) (by omega)
      rw [unroll f, he1, hok]
    · obtain ⟨e1, he1⟩ := hfail 1 (by omega) (by omega)
      obtain ⟨e2, he2⟩ := hfail 2 (by omega) (by omega)
      rw [unroll f, he1, he2, hok]
  · intro hfail
    obtain ⟨e1, he1⟩ := hfail 1 (by omega) (by omega)
    obtain ⟨e2, he2⟩ := hfail 2 (by omega) (by omega)
    obtain ⟨e3, he3⟩ := hfail 3 (by omega) (by omega)
    refine ⟨e3, he3, ?_⟩
    rw [unroll f, he1, he2, he3]

/-- Witness for C9: an oracle failing on attempt 1 and succeeding on
attempt 2 makes the wrapper return the attempt-2 text. -/
theorem callOpenAIWithRetry_spec_check :
    callOpenAIWithRetry (some ("k").data) attemptOracle2 3
      = .ok ("pong").data := by
  refine (callOpenAIWithRetry_spec ("k").data attemptOracle2
      attemptOracle2).2.1 2 ("pong").data (by omega) (by omega) ?_ (by rfl)
  intro i h1 h2
  have : i = 1 := by omega
  subst this
  exact ⟨("down").data, rfl⟩

/-- Auxiliary: appending one section shifts the chain's endpoint. -/
theorem nextStart_append_singleton (xs : List Section) (y : Section)
    (stop : Nat) :
    nextStart (xs ++ [y]) stop = nextStart xs y.start_index := by
  cases xs <;> rfl

/-- Auxiliary: a chain up to `y.start_index` extends by `y` into a chain
up to `stop` when `y` spans `[y.start_index, stop - 1]`. -/
theorem chainTo_append_singleton (xs : List Section) (y : Section)
    (stop : Nat) (h1 : chainTo xs y.start_index) (h2 : y.start_index < stop)
    (h3 : y.end_index + 1 = stop) : chainTo (xs ++ [y]) stop := by
  induction xs with
  | nil => exact ⟨h2, h3, trivial⟩
  | cons a as ih =>
    obtain ⟨ha1, ha2, ha3⟩ := h1
    rw [List.cons_append]
    refine ⟨?_, ?_, ih ha3⟩
    · rw [nextStart_append_singleton]
      exact ha1
    · rw [nextStart_append_singleton]
      exact ha2

/-- Auxiliary: one parser step preserves the loop invariant. -/
theorem loopInv_step (st : PState) (line : List Char) (idx : Nat)
    (h : loopInv idx st) : loopInv (idx + 1) (stepLine st line idx) := by
  cases hm : headerMatch line with
  | none =>
    cases hcur : st.cur with
    | none =>
      simp only [loopInv, hcur] at h
      simp only [stepLine, hm, hcur, loopInv]
      exact h
    | some c =>
      obtain ⟨t0, lv0, si0⟩ := c
      simp only [loopInv, hcur] at h
      simp only [stepLine, hm, hcur, loopInv]
      exact ⟨by omega, h.2⟩
  | some p =>
    obtain ⟨lv, t⟩ := p
    cases hcur : st.cur with
    | none =>
      simp only [loopInv, hcur] at h
      simp only [stepLine, hm, hcur, loopInv, h]
      exact ⟨by omega, trivial⟩
    | some c =>
      obtain ⟨t0, lv0, si0⟩ := c
      simp only [loopInv, hcur] at h
      simp only [stepLine, hm, hcur, loopInv]
      refine ⟨by omega, chainTo_append_singleton _ _ _ h.2 h.1 ?_⟩
      have : 1 ≤ idx := by omega
      simp [closeSection]
      omega

/-- Auxiliary: the whole loop preserves the invariant. -/
theorem loopInv_loop (lines : List (List Char)) (idx : Nat) (st : PState)
    (h : loopInv idx st) :
    loopInv (idx + lines.length) (parseLoop lines idx st) := by
  induction lines generalizing idx st with
  | nil => simpa using h
  | cons l ls ih =>
    simp only [parseLoop, List.length_cons]
    have h3 := ih (idx + 1) _ (loopInv_step st l idx h)
    have heq : idx + (ls.length + 1) = idx + 1 + ls.length := by omega
    rw [heq]
    exact h3

/-- Auxiliary: the parser's output chains up to the line count. -/
theorem chainTo_parseLines (lines : List (List Char)) :
    chainTo (parseLines lines) lines.length := by
  have h := loopInv_loop lines 0 ⟨[], none, []⟩ (by simp [loopInv])
  rw [Nat.zero_add] at h
  unfold parseLines flushLast
  cases hcur : (parseLoop lines 0 ⟨[], none, []⟩).cur with
  | none =>
    simp only [loopInv, hcur] at h
    rw [h]
    exact trivial
  | some c =>
    obtain ⟨t, lv, si⟩ := c
    simp only [loopInv, hcur] at h
    refine chainTo_append_singleton _ _ _ h.2 ?_ ?_
    · simpa [closeSection] using h.1
    · simp [closeSection]
      omega

/-- Auxiliary: a chain gives the adjacent-pair facts at every index. -/
theorem chainTo_get_succ (S : List Section) (stop : Nat) (h : chainTo S stop) :
    ∀ i (hi : i + 1 < S.length),
      (S.get ⟨i, Nat.lt_of_succ_lt hi⟩).start_index
          < (S.get ⟨i + 1, hi⟩).start_index ∧
      (S.get ⟨i, Nat.lt_of_succ_lt hi⟩).end_index + 1
          = (S.get ⟨i + 1, hi⟩).start_index := by
  induction S generalizing stop with
  | nil => intro i hi; simp at hi
  | cons a as ih =>
    intro i hi
    cases i with
    | zero =>
      cases as with
      | nil => simp at hi
      | cons b bs =>
        obtain ⟨h1, h2, _⟩ := h
        exact ⟨h1, h2⟩
    | succ j =>
      obtain ⟨_, _, h3⟩ := h
      exact ih stop h3 j (by simp only [List.length_cons] at hi; omega)

/-- Auxiliary: a chain pins the last section's end line. -/
theorem chainTo_getLast (S : List Section) (stop : Nat) (h : chainTo S stop)
    (hne : S ≠ []) : (S.getLast hne).end_index + 1 = stop := by
  induction S with
  | nil => exact absurd rfl hne
  | cons a as ih =>
    cases as with
    | nil =>
      obtain ⟨_, h2, _⟩ := h
      simpa [List.getLast, nextStart] using h2
    | cons b bs =>
      obtain ⟨_, _, h3⟩ := h
      have hres := ih h3 (by simp)
      rw [List.getLast_cons (by simp)]
      exact hres

/-- C2: for every input text, consecutive sections have strictly
increasing `start_index`; each non-final section's `end_index` is the
next section's `start_index` minus one; and the final section's
`end_index` is the index of the document's last line (line count minus
one). -/
theorem parse_boundary_invariants (content : List Char) :
    (∀ i (hi : i + 1 < (parseMarkdownSections content).length),
        ((parseMarkdownSections content).get
            ⟨i, Nat.lt_of_succ_lt hi⟩).start_index
          < ((parseMarkdownSections content).get ⟨i + 1, hi⟩).start_index)
  ∧ (∀ i (hi : i + 1 < (parseMarkdownSections content).length),
        ((parseMarkdownSections content).get
            ⟨i, Nat.lt_of_succ_lt hi⟩).end_index
          = ((parseMarkdownSections content).get ⟨i + 1, hi⟩).start_index - 1)
  ∧ ∀ hne : parseMarkdownSections content ≠ [],
      ((parseMarkdownSections content).getLast hne).end_index
        = (splitLines content).length - 1 := by
  have hchain : chainTo (parseMarkdownSections content)
      (splitLines content).length := chainTo_parseLines (splitLines content)
  refine ⟨?_, ?_, ?_⟩
  · intro i hi
    exact (chainTo_get_succ _ _ hchain i hi).1
  · intro i hi
    have h := (chainTo_get_succ _ _ hchain i hi).2
    omega
  · intro hne
    have h := chainTo_getLast _ _ hchain hne
    omega

/-- Witness for C2 on a concrete two-section document. -/
theorem parse_boundary_invariants_check :
    ((parseMarkdownSections ("# A\nx\n# B\ny").data).get
        ⟨0, by decide⟩).start_index
      < ((parseMarkdownSections ("# A\nx\n# B\ny").data).get
        ⟨1, by decide⟩).start_index ∧
    ((parseMarkdownSections ("# A\nx\n# B\ny").data).getLast
        (by decide)).end_index
      = (splitLines ("# A\nx\n# B\ny").data).length - 1 := by
  have h := parse_boundary_invariants ("# A\nx\n# B\ny").data
  exact ⟨h.1 0 (by decide), h.2.2 (by decide)⟩

/-- Auxiliary: one step adds one to the tally exactly on heading lines. -/
theorem sectionTally_step (st : PState) (line : List Char) (idx : Nat) :
    sectionTally (stepLine st line idx)
      = sectionTally st + (if (headerMatch line).isSome then 1 else 0) := by
  cases hm : headerMatch line with
  | none =>
    cases hcur : st.cur <;> simp [stepLine, sectionTally, hm, hcur]
  | some p =>
    obtain ⟨lv, t⟩ := p
    cases hcur : st.cur <;>
      simp [stepLine, sectionTally, hm, hcur, List.length_append]

/-- Auxiliary: the loop adds the number of heading lines to the tally. -/
theorem sectionTally_loop (lines : List (List Char)) (idx : Nat)
    (st : PState) :
    sectionTally (parseLoop lines idx st)
      = sectionTally st + lines.countP (fun l => (headerMatch l).isSome) := by
  induction lines generalizing idx st with
  | nil => simp [parseLoop]
  | cons l ls ih =>
    simp only [parseLoop]
    rw [ih, sectionTally_step, List.countP_cons]
    by_cases hp : (headerMatch l).isSome
    · simp only [hp, if_true]
      omega
    · simp only [hp, if_false]
      omega

/-- Auxiliary: the final flush realizes the tally. -/
theorem flushLast_length (st : PState) (total : Nat) :
    (flushLast st total).length = sectionTally st := by
  unfold flushLast sectionTally
  cases hcur : st.cur with
  | none => simp
  | some c =>
    obtain ⟨t, lv, si⟩ := c
    simp

/-- C8: the Section Parser is a total function of the input text — it is
defined (terminates, yields a section list, raises nothing) on every
input, empty or malformed included — and the number of sections it
returns is exactly the number of lines matching the heading pattern, so
heading-free input just produces the empty list. -/
theorem parseMarkdownSections_total (content : List Char) :
    (parseMarkdownSections content).length
      = (splitLines content).countP (fun l => (headerMatch l).isSome) := by
  unfold parseMarkdownSections parseLines
  rw [flushLast_length, sectionTally_loop]
  simp [sectionTally]

/-- Auxiliary: one step respects the index-free signature — states with
equal signatures step to states with equal signatures, even when the
running line indices differ. -/
theorem stSig_step (st st2 : PState) (l : List Char) (i j : Nat)
    (h : stSig st = stSig st2) :
    stSig (stepLine st l i) = stSig (stepLine st2 l j) := by
  have hs : st.sections.map secSig = st2.sections.map secSig :=
    congrArg (fun x => x.1) h
  have hc : curSig st.cur = curSig st2.cur :=
    congrArg (fun x => x.2.1) h
  have hcl : st.contentLines = st2.contentLines :=
    congrArg (fun x => x.2.2) h
  cases hm : headerMatch l with
  | none =>
    cases hcur : st.cur with
    | none =>
      cases hcur2 : st2.cur with
      | none => simpa [stepLine, hm, hcur, hcur2] using h
      | some c2 =>
        rw [hcur, hcur2] at hc
        obtain ⟨t2, lv2, si2⟩ := c2
        simp [curSig] at hc
    | some c =>
      obtain ⟨t0, lv0, si0⟩ := c
      cases hcur2 : st2.cur with
      | none =>
        rw [hcur, hcur2] at hc
        simp [curSig] at hc
      | some c2 =>
        obtain ⟨t2, lv2, si2⟩ := c2
        simp [stepLine, hm, hcur, hcur2, stSig, hs, hcl]
        rw [hcur, hcur2] at hc
        simpa [curSig] using hc
  | some p =>
    obtain ⟨lv, t⟩ := p
    cases hcur : st.cur with
    | none =>
      cases hcur2 : st2.cur with
      | none => simp [stepLine, hm, hcur, hcur2, stSig, curSig, hs]
      | some c2 =>
        rw [hcur, hcur2] at hc
        obtain ⟨t2, lv2, si2⟩ := c2
        simp [curSig] at hc
    | some c =>
      obtain ⟨t0, lv0, si0⟩ := c
      cases hcur2 : st2.cur with
      | none =>
        rw [hcur, hcur2] at hc
        simp [curSig] at hc
      | some c2 =>
        obtain ⟨t2, lv2, si2⟩ := c2
        rw [hcur, hcur2] at hc
        simp only [curSig, Option.some.injEq, Prod.mk.injEq] at hc
        simp [stepLine, hm, hcur, hcur2, stSig, curSig, List.map_append,
          secSig, closeSection, hs, hcl, hc.1, hc.2]

/-- Auxiliary: the loop respects the index-free signature. -/
theorem stSig_loop (lines : List (List Char)) (i j : Nat) (st st2 : PState)
    (h : stSig st = stSig st2) :
    stSig (parseLoop lines i st) = stSig (parseLoop lines j st2) := by
  induction lines generalizing i j st st2 with
  | nil => exact h
  | cons l ls ih => exact ih (i + 1) (j + 1) _ _ (stSig_step st st2 l i j h)

/-- Auxiliary: the final flush respects the index-free signature. -/
theorem flushLast_sig (st st2 : PState) (t1 t2 : Nat)
    (h : stSig st = stSig st2) :
    (flushLast st t1).map secSig = (flushLast st2 t2).map secSig := by
  have hs : st.sections.map secSig = st2.sections.map secSig :=
    congrArg (fun x => x.1) h
  have hc : curSig st.cur = curSig st2.cur :=
    congrArg (fun x => x.2.1) h
  have hcl : st.contentLines = st2.contentLines :=
    congrArg (fun x => x.2.2) h
  cases hcur : st.cur with
  | none =>
    cases hcur2 : st2.cur with
    | none => simpa [flushLast, hcur, hcur2] using hs
    | some c2 =>
      rw [hcur, hcur2] at hc
      obtain ⟨t2x, lv2, si2⟩ := c2
      simp [curSig] at hc
  | some c =>
    obtain ⟨t0, lv0, si0⟩ := c
    cases hcur2 : st2.cur with
    | none =>
      rw [hcur, hcur2] at hc
      simp [curSig] at hc
    | some c2 =>
      obtain ⟨t2x, lv2, si2⟩ := c2
      rw [hcur, hcur2] at hc
      simp only [curSig, Option.some.injEq, Prod.mk.injEq] at hc
      simp [flushLast, hcur, hcur2, List.map_append, secSig, closeSection,
        hs, hcl, hc.1, hc.2]

/-- Auxiliary: the loop splits over list append. -/
theorem parseLoop_append (a b : List (List Char)) (idx : Nat) (st : PState) :
    parseLoop (a ++ b) idx st
      = parseLoop b (idx + a.length) (parseLoop a idx st) := by
  induction a generalizing idx st with
  | nil => simp [parseLoop]
  | cons l ls ih =>
    rw [List.cons_append]
    simp only [parseLoop, List.length_cons]
    rw [ih]
    have heq : idx + (ls.length + 1) = idx + 1 + ls.length := by omega
    rw [heq]

/-- Auxiliary: heading-free lines leave the initial state untouched. -/
theorem parseLoop_no_heading (lines : List (List Char)) (idx : Nat)
    (h : ∀ l ∈ lines, headerMatch l = none) :
    parseLoop lines idx ⟨[], none, []⟩ = (⟨[], none, []⟩ : PState) := by
  induction lines generalizing idx with
  | nil => rfl
  | cons l ls ih =>
    have hl : headerMatch l = none := h l (by simp)
    have hstep : stepLine ⟨[], none, []⟩ l idx = (⟨[], none, []⟩ : PState) := by
      simp [stepLine, hl]
    simp only [parseLoop, hstep]
    exact ih (idx + 1) (fun x hx => h x (by simp [hx]))

/-- C6: a document with no heading lines (the empty document included)
parses to the empty section list; and lines preceding the first heading
are discarded — deleting any heading-free prefix of the line array does
not change the parsed sections' titles, levels or contents. -/
theorem parser_discards_preamble :
    (∀ content : List Char,
        (∀ l ∈ splitLines content, headerMatch l = none) →
        parseMarkdownSections content = [])
  ∧ ∀ (pre rest : List (List Char)), (∀ l ∈ pre, headerMatch l = none) →
      (parseLines (pre ++ rest)).map secSig
        = (parseLines rest).map secSig := by
  constructor
  · intro content h
    unfold parseMarkdownSections parseLines
    rw [parseLoop_no_heading _ _ h]
    rfl
  · intro pre rest h
    unfold parseLines
    rw [parseLoop_append, parseLoop_no_heading _ _ h]
    exact flushLast_sig _ _ _ _
      (stSig_loop rest (0 + pre.length) 0 _ _ rfl)

/-- Witness for C6: the classic no-heading input parses to nothing, and
a one-line preamble in front of a one-section document changes no
section signature. -/
theorem parser_discards_preamble_check :
    parseMarkdownSections ("plain text\nno headings\n").data = [] ∧
    (parseLines ([("intro").data] ++ splitLines ("# A\nx").data)).map secSig
      = (parseLines (splitLines ("# A\nx").data)).map secSig := by
  have h := parser_discards_preamble
  exact ⟨h.1 _ (by decide), h.2 [("intro").data] _ (by decide)⟩

/-- Auxiliary: one client step is one server step under field renaming. -/
theorem clientStepLine_toServer (st : CPState) (l : List Char) (idx : Nat) :
    (clientStepLine st l idx).toServer = stepLine st.toServer l idx := by
  cases hm : headerMatch l with
  | none =>
    cases hcur : st.cur with
    | none => simp [clientStepLine, stepLine, CPState.toServer, hm, hcur]
    | some c => simp [clientStepLine, stepLine, CPState.toServer, hm, hcur]
  | some p =>
    obtain ⟨lv, t⟩ := p
    cases hcur : st.cur with
    | none => simp [clientStepLine, stepLine, CPState.toServer, hm, hcur]
    | some c =>
      obtain ⟨t0, lv0, si0⟩ := c
      simp [clientStepLine, stepLine, CPState.toServer, hm, hcur,
        List.map_append, clientCloseSection, closeSection,
        ClientSection.toServer]

/-- Auxiliary: the client loop is the server loop under field renaming. -/
theorem clientParseLoop_toServer (lines : List (List Char)) (idx : Nat)
    (st : CPState) :
    (clientParseLoop lines idx st).toServer = parseLoop lines idx st.toServer := by
  induction lines generalizing idx st with
  | nil => rfl
  | cons l ls ih =>
    simp only [clientParseLoop, parseLoop]
    rw [← clientStepLine_toServer]
    exact ih (idx + 1) _

/-- Auxiliary: the client flush is the server flush under renaming. -/
theorem clientFlushLast_toServer (st : CPState) (total : Nat) :
    (clientFlushLast st total).map ClientSection.toServer
      = flushLast st.toServer total := by
  cases hcur : st.cur with
  | none => simp [clientFlushLast, flushLast, CPState.toServer, hcur]
  | some c =>
    obtain ⟨t0, lv0, si0⟩ := c
    simp [clientFlushLast, flushLast, CPState.toServer, hcur,
      List.map_append, clientCloseSection, closeSection,
      ClientSection.toServer]

/-- Auxiliary: `takeWhile` passes over a prefix all of whose elements
satisfy the predicate. -/
theorem takeWhile_append_all (p : Char → Bool) (xs ys : List Char)
    (hxs : ∀ a ∈ xs, p a = true) :
    (xs ++ ys).takeWhile p = xs ++ ys.takeWhile p := by
  induction xs with
  | nil => rfl
  | cons a as ih =>
    have ha : p a = true := hxs a (by simp)
    simp [List.takeWhile_cons, ha, ih (fun x hx => hxs x (by simp [hx]))]

/-- Auxiliary: `dropWhile` removes a prefix all of whose elements
satisfy the predicate. -/
theorem dropWhile_append_all (p : Char → Bool) (xs ys : List Char)
    (hxs : ∀ a ∈ xs, p a = true) :
    (xs ++ ys).dropWhile p = ys.dropWhile p := by
  induction xs with
  | nil => rfl
  | cons a as ih =>
    have ha : p a = true := hxs a (by simp)
    simp [List.dropWhile_cons, ha, ih (fun x hx => hxs x (by simp [hx]))]

/-- Auxiliary: the head surviving a `dropWhile` falsifies the
predicate. -/
theorem dropWhile_head_false (p : Char → Bool) (l : List Char) (c : Char)
    (cs : List Char) (h : l.dropWhile p = c :: cs) : p c = false := by
  induction l with
  | nil => simp [List.dropWhile] at h
  | cons a as ih =>
    cases hpa : p a with
    | true =>
      simp [List.dropWhile_cons, hpa] at h
      exact ih h
    | false =>
      simp [List.dropWhile_cons, hpa] at h
      rw [← h.1]
      exact hpa

/-- Auxiliary: whitespace is never a hash mark. -/
theorem ws_not_hash (c : Char) (h : isJsWs c = true) : (c == '#') = false := by
  cases hcb : c == '#' with
  | false => rfl
  | true =>
    have hc : c = '#' := eq_of_beq hcb
    subst hc
    exact absurd h (by decide)

/-- Auxiliary: membership in `dropLast` implies membership. -/
theorem mem_dropLast_imp (l : List Char) (c : Char) (h : c ∈ l.dropLast) :
    c ∈ l := by
  induction l with
  | nil => simp at h
  | cons a as ih =>
    cases as with
    | nil => simp at h
    | cons b bs =>
      rw [List.dropLast_cons₂] at h
      rcases List.mem_cons.mp h with h1 | h2
      · simp [h1]
      · exact List.mem_cons_of_mem a (ih h2)

/-- Auxiliary: elements surviving `dropWhile` are elements. -/
theorem mem_dropWhile_imp (p : Char → Bool) (l : List Char) (c : Char)
    (h : c ∈ l.dropWhile p) : c ∈ l := by
  rw [← List.takeWhile_append_dropWhile (p := p) (l := l)]
  exact List.mem_append_right _ h

/-- Auxiliary (forward direction of the heading-recognition analysis):
whatever `headerMatch` accepts decomposes as hashes, then a non-empty
whitespace run, then the captured title, which is non-empty, free of
line terminators, and starts with whitespace only in the degenerate
all-whitespace case where it is a single character.  The captured level
is the length of the leading hash run.  Note the title is NOT trimmed. -/
theorem headerMatch_elim (line : List Char) (lv : Nat) (t : List Char)
    (h : headerMatch line = some (lv, t)) :
    lv = (line.takeWhile (fun c => c == '#')).length ∧ 1 ≤ lv ∧
    t ≠ [] ∧ (∀ c ∈ t, isDotChar c = true) ∧
    (∃ w, line = List.replicate lv '#' ++ w ++ t ∧ w ≠ [] ∧
      ∀ c ∈ w, isJsWs c = true) ∧
    (∀ c cs, t = c :: cs → isJsWs c = true → cs = []) := by
  have hsplit := List.takeWhile_append_dropWhile
    (p := fun c => c == '#') (l := line)
  have hsplit2 := List.takeWhile_append_dropWhile
    (p := isJsWs) (l := line.dropWhile (fun c => c == '#'))
  cases h0 : (line.takeWhile (fun c => c == '#')).isEmpty with
  | true => simp [headerMatch, h0] at h
  | false =>
  cases h1 :
      ((line.dropWhile (fun c => c == '#')).takeWhile isJsWs).isEmpty with
  | true => simp [headerMatch, h0, h1] at h
  | false =>
  have hHne : line.takeWhile (fun c => c == '#') ≠ [] :=
    List.isEmpty_eq_false.mp h0
  have hHlen : 0 < (line.takeWhile (fun c => c == '#')).length :=
    List.length_pos.mpr hHne
  have hHs : line.takeWhile (fun c => c == '#')
      = List.replicate (line.takeWhile (fun c => c == '#')).length '#' := by
    rw [List.eq_replicate_iff]
    refine ⟨rfl, fun b hb => ?_⟩
    have hb2 := List.mem_takeWhile_imp hb
    simpa using hb2
  have hWall : ∀ c ∈ (line.dropWhile (fun c => c == '#')).takeWhile isJsWs,
      isJsWs c = true := fun c hc => List.mem_takeWhile_imp hc
  have hWne : (line.dropWhile (fun c => c == '#')).takeWhile isJsWs ≠ [] :=
    List.isEmpty_eq_false.mp h1
  cases h2 :
      ((line.dropWhile (fun c => c == '#')).dropWhile isJsWs).isEmpty with
  | false =>
    have hTne : (line.dropWhile (fun c => c == '#')).dropWhile isJsWs ≠ [] :=
      List.isEmpty_eq_false.mp h2
    cases h3 :
        ((line.dropWhile (fun c => c == '#')).dropWhile isJsWs).all isDotChar
        with
    | false => simp [headerMatch, h0, h1, h2, h3] at h
    | true =>
      simp only [headerMatch, h0, h1, h2, h3] at h
      simp only [Bool.false_eq_true, if_false, if_true, ite_false, ite_true,
        Option.some.injEq, Prod.mk.injEq] at h
      obtain ⟨hlv, ht⟩ := h
      subst hlv
      subst ht
      refine ⟨rfl, by omega, hTne, List.all_eq_true.mp h3, ?_, ?_⟩
      · refine ⟨(line.dropWhile (fun c => c == '#')).takeWhile isJsWs,
          ?_, hWne, hWall⟩
        rw [← hHs, List.append_assoc, hsplit2, hsplit]
      · intro c cs htc hws
        have hf := dropWhile_head_false isJsWs _ c cs htc
        rw [hf] at hws
        cases hws
  | true =>
    have hT : (line.dropWhile (fun c => c == '#')).dropWhile isJsWs = [] :=
      List.isEmpty_iff.mp h2
    cases hgl :
        ((line.dropWhile (fun c => c == '#')).takeWhile isJsWs).getLast? with
    | none =>
      simp [headerMatch, h0, h1, h2, hgl] at h
    | some c =>
      by_cases h4 :
          2 ≤ ((line.dropWhile (fun c => c == '#')).takeWhile isJsWs).length
      · cases h5 : isDotChar c with
        | false => simp [headerMatch, h0, h1, h2, hgl, h4, h5] at h
        | true =>
          simp only [headerMatch, h0, h1, h2, hgl, h4, h5] at h
          simp only [Bool.false_eq_true, if_false, if_true, ite_false,
            ite_true, Option.some.injEq, Prod.mk.injEq] at h
          obtain ⟨hlv, ht⟩ := h
          subst hlv
          subst ht
          have hWR := hsplit2
          rw [hT, List.append_nil] at hWR
          have hWdec : ((line.dropWhile (fun c => c == '#')).takeWhile
              isJsWs).dropLast ++ [c]
              = (line.dropWhile (fun c => c == '#')).takeWhile isJsWs :=
            List.dropLast_append_getLast? c (Option.mem_def.mpr hgl)
          refine ⟨rfl, by omega, by simp, ?_, ?_, ?_⟩
          · intro x hx
            rw [List.mem_singleton.mp hx]
            exact h5
          · refine ⟨((line.dropWhile (fun c => c == '#')).takeWhile
              isJsWs).dropLast, ?_, ?_, ?_⟩
            · rw [← hHs, List.append_assoc, hWdec, hWR, hsplit]
            · have hlen : 0 < ((line.dropWhile (fun c => c == '#')).takeWhile
                  isJsWs).dropLast.length := by
                rw [List.length_dropLast]
                omega
              exact List.length_pos.mp hlen
            · intro x hx
              exact hWall x (mem_dropLast_imp _ x hx)
          · intro c2 cs htc hws
            cases cs with
            | nil => rfl
            | cons d ds => simp at htc
      · simp [headerMatch, h0, h1, h2, hgl, h4] at h

/-- Auxiliary (backward direction): any line decomposing as a non-empty
hash run, a non-empty whitespace run, and a non-empty line-terminator
free remainder is accepted by `headerMatch`. -/
theorem headerMatch_intro (k : Nat) (w t : List Char) (hk : 1 ≤ k)
    (hw : w ≠ []) (hwall : ∀ c ∈ w, isJsWs c = true) (ht : t ≠ [])
    (htall : ∀ c ∈ t, isDotChar c = true) :
    (headerMatch (List.replicate k '#' ++ w ++ t)).isSome = true := by
  cases w with
  | nil => exact absurd rfl hw
  | cons c0 w2 =>
  have hkne : k ≠ 0 := by omega
  have hhash : ∀ a ∈ List.replicate k '#', (a == '#') = true := by
    intro a ha
    rw [(List.mem_replicate.mp ha).2]
    rfl
  have hc0 : isJsWs c0 = true := hwall c0 (by simp)
  have hc0h : (c0 == '#') = false := ws_not_hash c0 hc0
  have hHs : (List.replicate k '#' ++ (c0 :: w2) ++ t).takeWhile
      (fun c => c == '#') = List.replicate k '#' := by
    rw [List.append_assoc, takeWhile_append_all _ _ _ hhash]
    simp [List.takeWhile_cons, hc0h]
  have hRd : (List.replicate k '#' ++ (c0 :: w2) ++ t).dropWhile
      (fun c => c == '#') = (c0 :: w2) ++ t := by
    rw [List.append_assoc, dropWhile_append_all _ _ _ hhash]
    simp [List.dropWhile_cons, hc0h]
  have hW : ((c0 :: w2) ++ t).takeWhile isJsWs
      = (c0 :: w2) ++ t.takeWhile isJsWs :=
    takeWhile_append_all _ _ _ hwall
  have hTd : ((c0 :: w2) ++ t).dropWhile isJsWs = t.dropWhile isJsWs :=
    dropWhile_append_all _ _ _ hwall
  have hH6 : (List.replicate k '#').isEmpty = false := by
    cases k with
    | zero => exact absurd rfl hkne
    | succ n => rfl
  have hWE : ((c0 :: w2) ++ t.takeWhile isJsWs).isEmpty = false := rfl
  cases hE : (t.dropWhile isJsWs).isEmpty with
  | false =>
    have hall : (t.dropWhile isJsWs).all isDotChar = true :=
      List.all_eq_true.mpr (fun x hx => htall x (mem_dropWhile_imp _ _ _ hx))
    simp only [headerMatch]
    rw [hHs, hRd, hW, hTd, hH6, hWE, hE]
    simp [hall]
  | true =>
    have hTt : t.takeWhile isJsWs = t := by
      have hsp := List.takeWhile_append_dropWhile (p := isJsWs) (l := t)
      rw [List.isEmpty_iff.mp hE, List.append_nil] at hsp
      exact hsp
    have hgl : ((c0 :: w2) ++ t.takeWhile isJsWs).getLast?
        = some (t.getLast ht) := by
      rw [hTt, List.getLast?_append,
        List.getLast?_eq_getLast_of_ne_nil ht]
      rfl
    have hdot : isDotChar (t.getLast ht) = true :=
      htall _ (List.getLast_mem ht)
    have hlen : 2 ≤ ((c0 :: w2) ++ t.takeWhile isJsWs).length := by
      rw [hTt]
      have h1t : 0 < t.length := List.length_pos.mpr ht
      simp [List.length_append]
      omega
    simp only [headerMatch]
    rw [hHs, hRd, hW, hTd, hH6, hWE, hE, hgl]
    simp [hdot, hTt]
    all_goals
      have h1t : 0 < t.length := List.length_pos.mpr ht
      omega

/-- C4 (amended): the parser's heading test accepts a line exactly when
it decomposes as one or more leading `'#'` characters, then a non-empty
whitespace run, then non-empty remaining text free of line terminators;
on an accepted line the captured level is the count of leading `'#'`
characters, and the captured title is the remaining text kept verbatim —
in particular it is NOT trimmed, so trailing whitespace survives (and
when everything after the hashes is whitespace, the title degenerates to
the final whitespace character); it never starts with whitespace except
in that degenerate single-character case. -/
theorem headerMatch_spec (line : List Char) :
    ((headerMatch line).isSome = true ↔
      ∃ k w t, line = List.replicate k '#' ++ w ++ t ∧ 1 ≤ k ∧ w ≠ [] ∧
        (∀ c ∈ w, isJsWs c = true) ∧ t ≠ [] ∧ ∀ c ∈ t, isDotChar c = true)
  ∧ ∀ lv t, headerMatch line = some (lv, t) →
      lv = (line.takeWhile (fun c => c == '#')).length ∧ 1 ≤ lv ∧
      t ≠ [] ∧ (∀ c ∈ t, isDotChar c = true) ∧
      (∃ w, line = List.replicate lv '#' ++ w ++ t ∧ w ≠ [] ∧
        ∀ c ∈ w, isJsWs c = true) ∧
      ∀ c cs, t = c :: cs → isJsWs c = true → cs = [] := by
  constructor
  · constructor
    · intro hs
      obtain ⟨⟨lv, t⟩, hmt⟩ := Option.isSome_iff_exists.mp hs
      obtain ⟨hlv, hk, htne, htall, ⟨w, hline, hwne, hwall⟩, _⟩ :=
        headerMatch_elim line lv t hmt
      exact ⟨lv, w, t, hline, by omega, hwne, hwall, htne, htall⟩
    · rintro ⟨k, w, t, hline, hk, hw, hwall, ht, htall⟩
      subst hline
      exact headerMatch_intro k w t hk hw hwall ht htall
  · intro lv t hmt
    exact headerMatch_elim line lv t hmt

/-- Counterexample for C4 as frozen: on the line `"# T "` the parser
stores the title `"T "` with its trailing space — the stored title is
not equal to its own trimmed form, contradicting the claim that the
title is the trimmed text with no trailing whitespace. -/
theorem headerMatch_title_not_trimmed :
    (parseMarkdownSections ("# T ").data).map (fun s => s.title)
        = [("T ").data] ∧
    jsTrim ("T ").data ≠ ("T ").data := by decide

/-- Witness for the amended C4 at the concrete line `"## T "`: it is
recognized as a heading, its level is the hash count 2, and its
(untrimmed) title is non-empty. -/
theorem headerMatch_spec_check :
    (headerMatch ("## T ").data).isSome = true ∧
    2 = (("## T ").data.takeWhile (fun c => c == '#')).length ∧
    ("T ").data ≠ [] := by
  have h := headerMatch_spec ("## T ").data
  have h2 := h.2 2 ("T ").data (by decide)
  refine ⟨?_, h2.1, h2.2.2.1⟩
  exact h.1.mpr ⟨2, [' '], ("T ").data, by decide, by decide, by decide,
    by decide, by decide, by decide⟩

/-- C10: on every input text the client-side parser of
`useBRDProcessor.ts` and the server-side parser of
`ai-brd-processor/index.ts` return the same section list — same titles,
levels, contents and start/end line indices — once the
`startIndex`/`start_index` field naming is aligned. -/
theorem client_server_parsers_agree (content : List Char) :
    (parseMarkdownSectionsClient content).map ClientSection.toServer
      = parseMarkdownSections content := by
  unfold parseMarkdownSectionsClient parseMarkdownSections parseLines
  rw [clientFlushLast_toServer, clientParseLoop_toServer]
  rfl

end BRD
